import Mathlib

/-!
Verification development for the deliver package manager (Go).

The definitions below are a shallow embedding of the Go sources:
the Package and Manifest data model, the dependency tree Node type,
the ResolveConflicts algorithm (tree.go as shipped in the repository),
the GitRepository update logic, and the command dispatch of main.
Go maps are embedded as association lists; Go pointers to tree nodes
are embedded either structurally (the inductive Node type, with node
identity given by breadth-first visit index) or as indices into a heap
(the HNode heap model used for the frame properties).
-/

set_option maxHeartbeats 1000000

namespace Deliver

/-- Package, as declared in the Go source: Name (the manifest key,
filled in by NewManifestFromFile), Source, Branch, Revision. -/
structure Package where
  Name : String
  Source : String
  Branch : String
  Revision : String
deriving DecidableEq, Repr

/-- Package.getBranch: the branch, defaulting to master when empty. -/
def Package.getBranch (p : Package) : String :=
  if p.Branch = "" then "master" else p.Branch

/-- Package.hasRevision: true iff the Revision field is nonempty. -/
def Package.hasRevision (p : Package) : Bool :=
  p.Revision != ""

/-- Package.getRevision: the revision, or HEAD when unset. -/
def Package.getRevision (p : Package) : String :=
  if !p.hasRevision then "HEAD" else p.Revision

/-- Package.getRef: branch-slash-revision, the comparison key for a
checkout target. -/
def Package.getRef (p : Package) : String :=
  p.getBranch ++ "/" ++ p.getRevision

/-- Dependency tree node (tree.go): an optional package (the Go field
is a pointer, nil being possible) and the ordered children list.
The parent back-reference of the Go struct is recovered structurally:
the traversal below carries the chain of ancestor packages with each
node, which is exactly what the parent pointers give the Go code. -/
inductive Node where
  | mk (packageInfo : Option Package) (children : List Node)

/-- Projection for the packageInfo field of a Node. -/
def Node.packageInfo : Node → Option Package
  | .mk p _ => p

/-- Projection for the children field of a Node. -/
def Node.children : Node → List Node
  | .mk _ cs => cs

mutual

/-- Number of nodes in a tree, used as the termination measure of the
breadth-first traversal. -/
def Node.size : Node → Nat
  | .mk _ cs => 1 + sizeNodes cs

/-- Total number of nodes in a list of trees. -/
def sizeNodes : List Node → Nat
  | [] => 0
  | n :: ns => Node.size n + sizeNodes ns

end

/-- A visited node as seen by ResolveConflicts: its breadth-first visit
index (modelling Go pointer identity, each tree node being dequeued
exactly once), its package, and the packageInfo fields of its ancestors
listed from the parent upwards (the chain the parent pointers yield). -/
structure VNode where
  idx : Nat
  pkg : Package
  anc : List (Option Package)
deriving DecidableEq, Repr

/-- Queue entries of the breadth-first traversal: a subtree together
with the ancestor chain of its root. -/
abbrev QEntry := Node × List (Option Package)

/-- Total tree size held in a queue, the termination measure. -/
def queueWeight : List QEntry → Nat
  | [] => 0
  | (n, _) :: rest => Node.size n + queueWeight rest

theorem queueWeight_append (a b : List QEntry) :
    queueWeight (a ++ b) = queueWeight a + queueWeight b := by
  induction a with
  | nil => simp [queueWeight]
  | cons e rest ih =>
      obtain ⟨n, anc⟩ := e
      simp [queueWeight, ih]
      omega

theorem queueWeight_map_children (cs : List Node) (a : List (Option Package)) :
    queueWeight (cs.map fun c => (c, a)) = sizeNodes cs := by
  induction cs with
  | nil => simp [queueWeight, sizeNodes]
  | cons c rest ih => simp [queueWeight, sizeNodes, ih]

/-- The FIFO breadth-first loop of ResolveConflicts, producing the list
of visited nodes in dequeue order.  A node whose packageInfo is nil
makes the Go code dereference a nil pointer (pkg := node.packageInfo
followed by pkg.Source), which aborts the run: that is modelled by the
none result.  Children are appended at the back of the queue, as in the
Go code. -/
def bfsAux : Nat → List QEntry → Option (List VNode)
  | _, [] => some []
  | _, (Node.mk none _, _) :: _ => none
  | k, (Node.mk (some p) cs, anc) :: rest =>
      (bfsAux (k + 1) (rest ++ cs.map fun c => (c, some p :: anc))).map
        (fun vs => ⟨k, p, anc⟩ :: vs)
termination_by k q => queueWeight q
decreasing_by
  simp [queueWeight, queueWeight_append, queueWeight_map_children, Node.size]
  omega

/-- The visit sequence of ResolveConflicts on a tree: the queue is
seeded with the children of the root (the root itself is never
visited), each child carrying the root as its single ancestor. -/
def traverse (root : Node) : Option (List VNode) :=
  bfsAux 0 (root.children.map fun c => (c, [root.packageInfo]))

/-- The per-source record of ResolveConflicts: the chosen node and the
changesets map from ref string to the nodes that requested that ref.
The Go map is embedded as an association list in insertion order. -/
structure Conflicts where
  chosen : VNode
  changesets : List (String × List VNode)
deriving DecidableEq, Repr

/-- Appending a node to the changeset list for its ref, creating the
entry if the ref key is new (the already-seen branch of the loop). -/
def addChangeset : List (String × List VNode) → String → VNode →
    List (String × List VNode)
  | [], ref, v => [(ref, [v])]
  | (r, ns) :: rest, ref, v =>
      if r = ref then (r, ns ++ [v]) :: rest
      else (r, ns) :: addChangeset rest ref v

/-- One iteration of the conflict-check loop body on the check map:
if the source of the visited node is present, append the node to the
changeset for its ref; otherwise create the record with this node as
chosen and a single changeset. -/
def checkInsert : List (String × Conflicts) → VNode → List (String × Conflicts)
  | [], v => [(v.pkg.Source, ⟨v, [(v.pkg.getRef, [v])]⟩)]
  | (s, c) :: rest, v =>
      if s = v.pkg.Source then
        (s, ⟨c.chosen, addChangeset c.changesets v.pkg.getRef v⟩) :: rest
      else (s, c) :: checkInsert rest v

/-- The check map after processing the whole visit sequence. -/
def buildCheck (vs : List VNode) : List (String × Conflicts) :=
  vs.foldl checkInsert []

/-- Lookup in the check map by source identity. -/
def lookupCheck : List (String × Conflicts) → String → Option Conflicts
  | [], _ => none
  | (s, c) :: rest, t => if s = t then some c else lookupCheck rest t

/-- ResolveConflicts: traverse breadth first, build the check map, and
return the chosen package of every source whose record holds more than
one distinct ref key.  The final loop of the Go code ranges over the
check map; the embedding fixes insertion order, and every claim proved
below is insensitive to that ordering. -/
def ResolveConflicts (root : Node) : Option (List Package) :=
  (traverse root).map fun vs =>
    ((buildCheck vs).filter fun sc => sc.2.changesets.length != 1).map
      fun sc => sc.2.chosen.pkg

/-- The ancestor chain a diagnostic prints for a node: walk the parent
chain as long as the parent exists and its packageInfo is not nil,
collecting the Source of each ancestor. -/
def ancestorSources : List (Option Package) → List String
  | some p :: rest => p.Source :: ancestorSources rest
  | _ => []

/-- One line block of a conflict warning: whether the node is the
chosen one (Go compares pointers, embedded as visit indices), its ref,
and its printed ancestor chain. -/
structure NodeReport where
  isChosen : Bool
  ref : String
  fromChain : List String
deriving DecidableEq, Repr

/-- The warning for a single conflicting source. -/
structure ConflictReport where
  source : String
  entries : List NodeReport
deriving DecidableEq, Repr

/-- The node entries printed for one conflict record. -/
def conflictEntries (c : Conflicts) : List NodeReport :=
  c.changesets.flatMap fun rn =>
    rn.2.map fun v => ⟨v.idx == c.chosen.idx, v.pkg.getRef, ancestorSources v.anc⟩

/-- The diagnostics ResolveConflicts emits: one warning per source
whose record has more than one distinct ref key. -/
def diagnostics (root : Node) : Option (List ConflictReport) :=
  (traverse root).map fun vs =>
    ((buildCheck vs).filter fun sc => sc.2.changesets.length != 1).map
      fun sc => ⟨sc.1, conflictEntries sc.2⟩

/-! ### Characterization of the check map -/

/-- The visited nodes whose source identity is s, in visit order. -/
def nodesFor (s : String) (vs : List VNode) : List VNode :=
  vs.filter fun v => v.pkg.Source == s

/-- Folding a list of nodes into a changesets map. -/
def extendCh (cs : List (String × List VNode)) (ns : List VNode) :
    List (String × List VNode) :=
  ns.foldl (fun acc v => addChangeset acc v.pkg.getRef v) cs

theorem extendCh_nil (cs : List (String × List VNode)) : extendCh cs [] = cs := rfl

theorem extendCh_cons (cs : List (String × List VNode)) (v : VNode) (ns : List VNode) :
    extendCh cs (v :: ns) = extendCh (addChangeset cs v.pkg.getRef v) ns := rfl

/-- The record the check map holds for a source after the traversal:
none when no visited node has that source, otherwise the first such
node as chosen together with the changesets accumulated from all of
them. -/
def recordFor (s : String) (vs : List VNode) : Option Conflicts :=
  match nodesFor s vs with
  | [] => none
  | v :: ns => some ⟨v, extendCh [(v.pkg.getRef, [v])] ns⟩

theorem lookup_checkInsert (check : List (String × Conflicts)) (v : VNode) (s : String) :
    lookupCheck (checkInsert check v) s =
      if s = v.pkg.Source then
        match lookupCheck check s with
        | some c => some ⟨c.chosen, addChangeset c.changesets v.pkg.getRef v⟩
        | none => some ⟨v, [(v.pkg.getRef, [v])]⟩
      else lookupCheck check s := by
  induction check with
  | nil =>
      by_cases h : s = v.pkg.Source
      · simp [checkInsert, lookupCheck, h]
      · have h2 : ¬ v.pkg.Source = s := fun hh => h hh.symm
        simp [checkInsert, lookupCheck, h, h2]
  | cons e rest ih =>
      obtain ⟨s0, c0⟩ := e
      by_cases h0 : s0 = v.pkg.Source
      · by_cases h : s = v.pkg.Source
        · have hs0 : s0 = s := by rw [h0, h]
          simp [checkInsert, lookupCheck, h0, h, hs0]
        · have hs0 : s0 ≠ s := by rw [h0]; exact fun hh => h hh.symm
          have h2 : ¬ v.pkg.Source = s := fun hh => h hh.symm
          simp [checkInsert, lookupCheck, h0, h, hs0, h2]
      · by_cases hs0 : s0 = s
        · have h : ¬ s = v.pkg.Source := by rw [← hs0]; exact fun hh => h0 hh
          simp [checkInsert, lookupCheck, h0, h, hs0]
        · simp [checkInsert, lookupCheck, h0, hs0, ih]

theorem lookup_buildFrom (vs : List VNode) (check : List (String × Conflicts)) (s : String) :
    lookupCheck (vs.foldl checkInsert check) s =
      match lookupCheck check s with
      | some c => some ⟨c.chosen, extendCh c.changesets (nodesFor s vs)⟩
      | none => recordFor s vs := by
  induction vs generalizing check with
  | nil =>
      cases h : lookupCheck check s <;> simp [h, recordFor, nodesFor, extendCh_nil]
  | cons v vs ih =>
      rw [List.foldl_cons, ih, lookup_checkInsert]
      by_cases h : s = v.pkg.Source
      · subst h
        have hfil : nodesFor v.pkg.Source (v :: vs) = v :: nodesFor v.pkg.Source vs := by
          simp [nodesFor, List.filter_cons]
        cases hc : lookupCheck check v.pkg.Source <;>
          simp [hc, hfil, recordFor, extendCh_cons]
      · have hs : ¬ v.pkg.Source = s := fun hh => h hh.symm
        have hfil : nodesFor s (v :: vs) = nodesFor s vs := by
          simp [nodesFor, List.filter_cons, hs]
        cases hc : lookupCheck check s <;>
          simp [hc, h, hfil, recordFor]

/-- Master characterization: the check map built by the loop answers
every source lookup with the record accumulated from exactly the
visited nodes of that source, the first one being chosen. -/
theorem lookup_buildCheck (vs : List VNode) (s : String) :
    lookupCheck (buildCheck vs) s = recordFor s vs := by
  rw [buildCheck, lookup_buildFrom]
  simp [lookupCheck]

/-! ### Keys and members of the changesets map -/

/-- The ref keys of a changesets map. -/
def chKeys (cs : List (String × List VNode)) : List String := cs.map Prod.fst

theorem chKeys_addChangeset (cs : List (String × List VNode)) (r : String) (v : VNode) :
    chKeys (addChangeset cs r v) =
      if r ∈ chKeys cs then chKeys cs else chKeys cs ++ [r] := by
  induction cs with
  | nil => simp [addChangeset, chKeys]
  | cons e rest ih =>
      obtain ⟨r0, l0⟩ := e
      by_cases h : r0 = r
      · simp [addChangeset, h, chKeys]
      · have h2 : ¬ r = r0 := fun hh => h hh.symm
        simp only [addChangeset, if_neg h, chKeys, List.map_cons] at ih ⊢
        rw [ih]
        by_cases hm : r ∈ List.map Prod.fst rest <;> simp [hm, h2]

theorem mem_chKeys_extendCh (cs : List (String × List VNode)) (ns : List VNode) (a : String) :
    a ∈ chKeys (extendCh cs ns) ↔ a ∈ chKeys cs ∨ ∃ v ∈ ns, v.pkg.getRef = a := by
  induction ns generalizing cs with
  | nil => simp [extendCh_nil]
  | cons v ns ih =>
      rw [extendCh_cons, ih, chKeys_addChangeset]
      by_cases hm : v.pkg.getRef ∈ chKeys cs
      · simp only [hm, if_true, List.mem_cons]
        constructor
        · rintro (h | ⟨w, hw, hww⟩)
          · exact Or.inl h
          · exact Or.inr ⟨w, Or.inr hw, hww⟩
        · rintro (h | ⟨w, hw | hw, hww⟩)
          · exact Or.inl h
          · subst hw; subst hww; exact Or.inl hm
          · exact Or.inr ⟨w, hw, hww⟩
      · simp only [hm, if_false, List.mem_append, List.mem_singleton, List.mem_cons]
        aesop

theorem addChangeset_same_key (l : List VNode) (r : String) (v : VNode) :
    addChangeset [(r, l)] r v = [(r, l ++ [v])] := by
  simp [addChangeset]

theorem extendCh_all_same (r : String) (l : List VNode) (ns : List VNode)
    (h : ∀ v ∈ ns, v.pkg.getRef = r) :
    extendCh [(r, l)] ns = [(r, l ++ ns)] := by
  induction ns generalizing l with
  | nil => simp [extendCh_nil]
  | cons v ns ih =>
      rw [extendCh_cons, h v (List.mem_cons_self v ns), addChangeset_same_key,
        ih (l ++ [v]) (fun w hw => h w (List.mem_cons_of_mem v hw))]
      simp

/-- A record with a single ref changeset is exactly one where every
later requester repeats the ref of the chosen node. -/
theorem length_extendCh_eq_one_iff (r : String) (l : List VNode) (ns : List VNode) :
    (extendCh [(r, l)] ns).length = 1 ↔ ∀ n ∈ ns, n.pkg.getRef = r := by
  constructor
  · intro h n hn
    by_contra hne
    have hkeylen : (chKeys (extendCh [(r, l)] ns)).length = 1 := by
      simp [chKeys, h]
    obtain ⟨k, hk⟩ := List.length_eq_one.mp hkeylen
    have h1 : r ∈ chKeys (extendCh [(r, l)] ns) :=
      (mem_chKeys_extendCh _ _ _).mpr (Or.inl (by simp [chKeys]))
    have h2 : n.pkg.getRef ∈ chKeys (extendCh [(r, l)] ns) :=
      (mem_chKeys_extendCh _ _ _).mpr (Or.inr ⟨n, hn, rfl⟩)
    rw [hk] at h1 h2
    simp only [List.mem_singleton] at h1 h2
    exact hne (h2.trans h1.symm)
  · intro h
    rw [extendCh_all_same r l ns h]
    rfl

/-! ### Keys and members of the check map -/

/-- The source keys of a check map. -/
def checkKeys (check : List (String × Conflicts)) : List String := check.map Prod.fst

theorem checkKeys_checkInsert (check : List (String × Conflicts)) (v : VNode) :
    checkKeys (checkInsert check v) =
      if v.pkg.Source ∈ checkKeys check then checkKeys check
      else checkKeys check ++ [v.pkg.Source] := by
  induction check with
  | nil => simp [checkInsert, checkKeys]
  | cons e rest ih =>
      obtain ⟨s0, c0⟩ := e
      by_cases h : s0 = v.pkg.Source
      · simp [checkInsert, h, checkKeys]
      · have h2 : ¬ v.pkg.Source = s0 := fun hh => h hh.symm
        simp only [checkInsert, if_neg h, checkKeys, List.map_cons] at ih ⊢
        rw [ih]
        by_cases hm : v.pkg.Source ∈ List.map Prod.fst rest <;> simp [hm, h2]

theorem checkKeys_nodup (vs : List VNode) : (checkKeys (buildCheck vs)).Nodup := by
  rw [buildCheck]
  have main : ∀ (check : List (String × Conflicts)), (checkKeys check).Nodup →
      (checkKeys (vs.foldl checkInsert check)).Nodup := by
    induction vs with
    | nil => intro check h; exact h
    | cons v vs ih =>
        intro check h
        rw [List.foldl_cons]
        refine ih _ ?_
        rw [checkKeys_checkInsert]
        by_cases hm : v.pkg.Source ∈ checkKeys check
        · simpa [hm] using h
        · simp [hm, List.nodup_append, h]
  exact main [] (by simp [checkKeys])

theorem mem_of_lookupCheck_eq_some (check : List (String × Conflicts)) (s : String)
    (c : Conflicts) (h : lookupCheck check s = some c) : (s, c) ∈ check := by
  induction check with
  | nil => simp [lookupCheck] at h
  | cons e rest ih =>
      obtain ⟨s0, c0⟩ := e
      by_cases hs : s0 = s
      · subst hs
        simp [lookupCheck] at h
        subst h
        exact List.mem_cons_self _ _
      · simp [lookupCheck, hs] at h
        exact List.mem_cons_of_mem _ (ih h)

theorem lookupCheck_eq_some_of_mem (check : List (String × Conflicts))
    (hnd : (checkKeys check).Nodup) (s : String) (c : Conflicts)
    (h : (s, c) ∈ check) : lookupCheck check s = some c := by
  induction check with
  | nil => simp at h
  | cons e rest ih =>
      obtain ⟨s0, c0⟩ := e
      have hnd' : (s0 :: checkKeys rest).Nodup := hnd
      obtain ⟨hnotin, hndrest⟩ := List.nodup_cons.mp hnd'
      rcases List.mem_cons.mp h with heq | hmem
      · cases heq
        simp [lookupCheck]
      · have hsmem : s ∈ checkKeys rest := List.mem_map_of_mem Prod.fst hmem
        have hs : s0 ≠ s := fun hh => hnotin (by rw [hh]; exact hsmem)
        simp [lookupCheck, hs, ih hndrest hmem]

/-! ### Members of the changeset node lists -/

/-- All nodes stored in a changesets map. -/
def chNodes (cs : List (String × List VNode)) : List VNode := cs.flatMap Prod.snd

theorem chNodes_cons (a : String) (b : List VNode) (t : List (String × List VNode)) :
    chNodes ((a, b) :: t) = b ++ chNodes t := by
  simp [chNodes]

theorem mem_chNodes_addChangeset (cs : List (String × List VNode)) (r : String)
    (v x : VNode) (h : x ∈ chNodes (addChangeset cs r v)) : x ∈ chNodes cs ∨ x = v := by
  induction cs with
  | nil => simpa [addChangeset, chNodes] using h
  | cons e rest ih =>
      obtain ⟨r0, l0⟩ := e
      by_cases hr : r0 = r
      · simp only [addChangeset, if_pos hr, chNodes_cons, List.mem_append,
          List.mem_singleton] at h
        simp only [chNodes_cons, List.mem_append]
        tauto
      · simp only [addChangeset, if_neg hr, chNodes_cons, List.mem_append] at h
        simp only [chNodes_cons, List.mem_append]
        rcases h with h | h
        · tauto
        · rcases ih h with hh | hh <;> tauto

theorem mem_chNodes_extendCh (cs : List (String × List VNode)) (ns : List VNode)
    (x : VNode) (h : x ∈ chNodes (extendCh cs ns)) : x ∈ chNodes cs ∨ x ∈ ns := by
  induction ns generalizing cs with
  | nil => exact Or.inl (by simpa [extendCh_nil] using h)
  | cons v ns ih =>
      rw [extendCh_cons] at h
      rcases ih _ h with hh | hh
      · rcases mem_chNodes_addChangeset _ _ _ _ hh with h2 | h2
        · exact Or.inl h2
        · exact Or.inr (by simp [h2])
      · exact Or.inr (List.mem_cons_of_mem _ hh)

/-! ### Structure of the breadth-first visit sequence -/

theorem bfsAux_nil (k : Nat) : bfsAux k [] = some [] := by rw [bfsAux]

theorem bfsAux_cons_none (k : Nat) (cs : List Node) (anc : List (Option Package))
    (rest : List QEntry) : bfsAux k ((Node.mk none cs, anc) :: rest) = none := by
  rw [bfsAux]

theorem bfsAux_cons_some (k : Nat) (p : Package) (cs : List Node)
    (anc : List (Option Package)) (rest : List QEntry) :
    bfsAux k ((Node.mk (some p) cs, anc) :: rest) =
      (bfsAux (k + 1) (rest ++ cs.map fun c => (c, some p :: anc))).map
        (fun vs => ⟨k, p, anc⟩ :: vs) := by
  rw [bfsAux]

theorem Node.size_pos (n : Node) : 1 ≤ n.size := by
  cases n with
  | mk p cs => simp [Node.size]

theorem queueWeight_eq_zero (q : List QEntry) (h : queueWeight q = 0) : q = [] := by
  cases q with
  | nil => rfl
  | cons e rest =>
      obtain ⟨n, a⟩ := e
      have := Node.size_pos n
      simp [queueWeight] at h
      omega

/-- Queue invariant of breadth-first search: the queue always consists
of a block of entries at some depth d followed by a block at depth
d + 1, so the visit sequence is emitted in nondecreasing depth order
(shallower requests are seen before deeper ones). -/
theorem bfs_blocks (n : Nat) : ∀ (k d : Nat) (q1 q2 : List QEntry) (vs : List VNode),
    queueWeight (q1 ++ q2) ≤ n →
    (∀ e ∈ q1, e.2.length = d) →
    (∀ e ∈ q2, e.2.length = d + 1) →
    bfsAux k (q1 ++ q2) = some vs →
    (∀ v ∈ vs, d ≤ v.anc.length) ∧
      List.Pairwise (fun a b => a.anc.length ≤ b.anc.length) vs := by
  induction n with
  | zero =>
      intro k d q1 q2 vs hw h1 h2 hbfs
      rw [queueWeight_eq_zero _ (Nat.le_zero.mp hw)] at hbfs
      rw [bfsAux_nil] at hbfs
      cases hbfs
      simp
  | succ n ih =>
      intro k d q1 q2 vs hw h1 h2 hbfs
      cases q1 with
      | nil =>
          cases q2 with
          | nil =>
              rw [List.nil_append, bfsAux_nil] at hbfs
              cases hbfs
              simp
          | cons e q2' =>
              obtain ⟨node, anc⟩ := e
              obtain ⟨pkg, cs⟩ := node
              cases pkg with
              | none =>
                  rw [List.nil_append, bfsAux_cons_none] at hbfs
                  cases hbfs
              | some p =>
                  rw [List.nil_append, bfsAux_cons_some] at hbfs
                  obtain ⟨vs', hvs', hcons⟩ := Option.map_eq_some'.mp hbfs
                  have hanc : anc.length = d + 1 :=
                    h2 (Node.mk (some p) cs, anc) (List.mem_cons_self _ _)
                  have hw2 : queueWeight (q2' ++ cs.map fun c => (c, some p :: anc)) ≤ n := by
                    rw [queueWeight_append, queueWeight_map_children]
                    rw [List.nil_append] at hw
                    simp [queueWeight, Node.size] at hw
                    omega
                  have hrec := ih (k + 1) (d + 1) q2'
                    (cs.map fun c => (c, some p :: anc)) vs' hw2
                    (fun e he => h2 e (List.mem_cons_of_mem _ he))
                    (by
                      intro e he
                      obtain ⟨c, _, rfl⟩ := List.mem_map.mp he
                      simp [hanc])
                    hvs'
                  subst hcons
                  constructor
                  · intro v hv
                    rcases List.mem_cons.mp hv with rfl | hv
                    · simp [hanc]
                    · exact Nat.le_of_succ_le (hrec.1 v hv)
                  · refine List.pairwise_cons.mpr ⟨?_, hrec.2⟩
                    intro v hv
                    simp only [hanc]
                    exact hrec.1 v hv
      | cons e q1' =>
          obtain ⟨node, anc⟩ := e
          obtain ⟨pkg, cs⟩ := node
          cases pkg with
          | none =>
              rw [List.cons_append, bfsAux_cons_none] at hbfs
              cases hbfs
          | some p =>
              rw [List.cons_append, bfsAux_cons_some] at hbfs
              obtain ⟨vs', hvs', hcons⟩ := Option.map_eq_some'.mp hbfs
              have hanc : anc.length = d :=
                h1 (Node.mk (some p) cs, anc) (List.mem_cons_self _ _)
              have hshuffle : (q1' ++ q2) ++ cs.map (fun c => (c, some p :: anc)) =
                  q1' ++ (q2 ++ cs.map fun c => (c, some p :: anc)) := by
                rw [List.append_assoc]
              rw [hshuffle] at hvs'
              have hw2 : queueWeight (q1' ++ (q2 ++ cs.map fun c => (c, some p :: anc))) ≤ n := by
                rw [queueWeight_append, queueWeight_append, queueWeight_map_children]
                rw [List.cons_append] at hw
                simp [queueWeight, queueWeight_append, Node.size] at hw
                omega
              have hrec := ih (k + 1) d q1'
                (q2 ++ cs.map fun c => (c, some p :: anc)) vs' hw2
                (fun e he => h1 e (List.mem_cons_of_mem _ he))
                (by
                  intro e he
                  rcases List.mem_append.mp he with he | he
                  · exact h2 e he
                  · obtain ⟨c, _, rfl⟩ := List.mem_map.mp he
                    simp [hanc])
                hvs'
              subst hcons
              constructor
              · intro v hv
                rcases List.mem_cons.mp hv with rfl | hv
                · simp [hanc]
                · exact hrec.1 v hv
              · refine List.pairwise_cons.mpr ⟨?_, hrec.2⟩
                intro v hv
                simp only [hanc]
                exact hrec.1 v hv

/-- Every visited node's ancestor chain is a chain of concrete packages
followed by the packageInfo of the tree root. -/
theorem bfs_anc_shape (n : Nat) : ∀ (k : Nat) (q : List QEntry) (vs : List VNode)
    (r : Option Package),
    queueWeight q ≤ n →
    (∀ e ∈ q, ∃ ps : List Package, e.2 = ps.map some ++ [r]) →
    bfsAux k q = some vs →
    ∀ v ∈ vs, ∃ ps : List Package, v.anc = ps.map some ++ [r] := by
  induction n with
  | zero =>
      intro k q vs r hw hq hbfs
      rw [queueWeight_eq_zero _ (Nat.le_zero.mp hw), bfsAux_nil] at hbfs
      cases hbfs
      simp
  | succ n ih =>
      intro k q vs r hw hq hbfs
      cases q with
      | nil =>
          rw [bfsAux_nil] at hbfs
          cases hbfs
          simp
      | cons e rest =>
          obtain ⟨node, anc⟩ := e
          obtain ⟨pkg, cs⟩ := node
          cases pkg with
          | none =>
              rw [bfsAux_cons_none] at hbfs
              cases hbfs
          | some p =>
              rw [bfsAux_cons_some] at hbfs
              obtain ⟨vs', hvs', hcons⟩ := Option.map_eq_some'.mp hbfs
              obtain ⟨ps0, hps0⟩ := hq (Node.mk (some p) cs, anc) (List.mem_cons_self _ _)
              have hps0' : anc = ps0.map some ++ [r] := hps0
              have hw2 : queueWeight (rest ++ cs.map fun c => (c, some p :: anc)) ≤ n := by
                rw [queueWeight_append, queueWeight_map_children]
                simp [queueWeight, Node.size] at hw
                omega
              have hrec := ih (k + 1) (rest ++ cs.map fun c => (c, some p :: anc)) vs' r hw2
                (by
                  intro e he
                  rcases List.mem_append.mp he with he | he
                  · exact hq e (List.mem_cons_of_mem _ he)
                  · obtain ⟨c, _, rfl⟩ := List.mem_map.mp he
                    exact ⟨p :: ps0, by simp [hps0']⟩)
                hvs'
              subst hcons
              intro v hv
              rcases List.mem_cons.mp hv with rfl | hv
              · exact ⟨ps0, hps0'⟩
              · exact hrec v hv

/-- The printed ancestor chain of a node whose parent chain consists of
packages ps and then the root carrying package rp: every ancestor is
printed, the root included, because the walk stops only at a nil
packageInfo or at the end of the chain. -/
theorem ancestorSources_shape (ps : List Package) (rp : Package) :
    ancestorSources (ps.map some ++ [some rp]) = ps.map Package.Source ++ [rp.Source] := by
  induction ps with
  | nil => simp [ancestorSources]
  | cons p ps ih => simp [ancestorSources, ih]

/-- Specialization to a full traversal: the visit sequence starts at
depth 1 and is nondecreasing in depth. -/
theorem traverse_sorted (root : Node) (vs : List VNode)
    (h : traverse root = some vs) :
    (∀ v ∈ vs, 1 ≤ v.anc.length) ∧
      List.Pairwise (fun a b => a.anc.length ≤ b.anc.length) vs := by
  have := bfs_blocks (queueWeight ((root.children.map fun c => (c, [root.packageInfo])) ++ []))
    0 1 (root.children.map fun c => (c, [root.packageInfo])) [] vs
    (le_refl _)
    (by
      intro e he
      obtain ⟨c, _, rfl⟩ := List.mem_map.mp he
      rfl)
    (by intro e he; cases he)
    (by rw [List.append_nil]; exact h)
  exact this

/-- Specialization to a full traversal: every visited node's ancestor
chain is a list of concrete packages followed by the packageInfo of the
root node. -/
theorem traverse_anc_shape (root : Node) (vs : List VNode)
    (h : traverse root = some vs) :
    ∀ v ∈ vs, ∃ ps : List Package, v.anc = ps.map some ++ [root.packageInfo] := by
  refine bfs_anc_shape (queueWeight (root.children.map fun c => (c, [root.packageInfo])))
    0 _ vs root.packageInfo (le_refl _) ?_ h
  intro e he
  obtain ⟨c, _, rfl⟩ := List.mem_map.mp he
  exact ⟨[], rfl⟩

/-- Among nodes satisfying a predicate, the first one in a sequence
sorted by depth has minimal depth. -/
theorem head_filter_min (p : VNode → Bool) (vs : List VNode)
    (hpw : List.Pairwise (fun a b => a.anc.length ≤ b.anc.length) vs)
    (v0 : VNode) (h0 : (vs.filter p).head? = some v0)
    (w : VNode) (hw : w ∈ vs) (hpww : p w = true) :
    v0.anc.length ≤ w.anc.length := by
  induction vs with
  | nil => cases hw
  | cons a t ih =>
      obtain ⟨ha, hpt⟩ := List.pairwise_cons.mp hpw
      by_cases hpa : p a
      · rw [List.filter_cons_of_pos hpa] at h0
        have hv0 : a = v0 := by simpa using h0
        subst hv0
        rcases List.mem_cons.mp hw with rfl | hw
        · exact le_refl _
        · exact ha w hw
      · rw [List.filter_cons_of_neg hpa] at h0
        rcases List.mem_cons.mp hw with rfl | hw
        · exact absurd hpww hpa
        · exact ih hpt h0 hw

/-- Membership in the filtered per-source node list. -/
theorem mem_nodesFor (s : String) (vs : List VNode) (v : VNode) :
    v ∈ nodesFor s vs ↔ v ∈ vs ∧ v.pkg.Source = s := by
  rw [nodesFor, List.mem_filter]
  simp

/-! ### C1: shallowest wins, first seen is chosen and never replaced -/

/-- C1: in any tree where a source is requested by a depth-1 node and
again by a deeper node with a different ref, the check record for that
source holds as chosen the first visited node with that source, that
chosen node sits at depth 1 (breadth-first order means shallower
requests are seen first, ties at equal depth broken by discovery
order), and its descriptor is the canonical resolution appearing in the
ResolveConflicts result. -/
theorem resolveConflicts_shallowest_wins
    (root : Node) (vs : List VNode) (s : String)
    (htr : traverse root = some vs)
    (v1 : VNode) (hv1 : v1 ∈ vs) (hd1 : v1.anc.length = 1) (hs1 : v1.pkg.Source = s)
    (v2 : VNode) (hv2 : v2 ∈ vs) (hd2 : 1 < v2.anc.length) (hs2 : v2.pkg.Source = s)
    (href : v2.pkg.getRef ≠ v1.pkg.getRef) :
    ∃ c : Conflicts, lookupCheck (buildCheck vs) s = some c ∧
      (nodesFor s vs).head? = some c.chosen ∧
      c.chosen.anc.length = 1 ∧
      c.chosen.pkg.Source = s ∧
      ∃ l, ResolveConflicts root = some l ∧ c.chosen.pkg ∈ l := by
  have hv1f : v1 ∈ nodesFor s vs := (mem_nodesFor s vs v1).mpr ⟨hv1, hs1⟩
  have hv2f : v2 ∈ nodesFor s vs := (mem_nodesFor s vs v2).mpr ⟨hv2, hs2⟩
  obtain ⟨v0, ns, hns⟩ : ∃ v0 ns, nodesFor s vs = v0 :: ns := by
    cases hh : nodesFor s vs with
    | nil => rw [hh] at hv1f; cases hv1f
    | cons a t => exact ⟨a, t, rfl⟩
  have hrec : recordFor s vs = some ⟨v0, extendCh [(v0.pkg.getRef, [v0])] ns⟩ := by
    rw [recordFor, hns]
  have hlook := (lookup_buildCheck vs s).trans hrec
  have hsorted := traverse_sorted root vs htr
  have hv0f : v0 ∈ nodesFor s vs := by rw [hns]; exact List.mem_cons_self _ _
  have hv0vs := (mem_nodesFor s vs v0).mp hv0f
  have hhead : (nodesFor s vs).head? = some v0 := by rw [hns]; rfl
  have hle : v0.anc.length ≤ v1.anc.length :=
    head_filter_min (fun v => v.pkg.Source == s) vs hsorted.2 v0 hhead v1 hv1
      (by simp [hs1])
  have hge : 1 ≤ v0.anc.length := hsorted.1 v0 hv0vs.1
  have hd0 : v0.anc.length = 1 := le_antisymm (hd1 ▸ hle) hge
  have hnotall : ¬ ∀ n ∈ ns, n.pkg.getRef = v0.pkg.getRef := by
    intro hall
    have hallx : ∀ x ∈ nodesFor s vs, x.pkg.getRef = v0.pkg.getRef := by
      intro x hx
      rw [hns] at hx
      rcases List.mem_cons.mp hx with rfl | hx
      · rfl
      · exact hall x hx
    exact href ((hallx v2 hv2f).trans (hallx v1 hv1f).symm)
  have hlen : (extendCh [(v0.pkg.getRef, [v0])] ns).length ≠ 1 := by
    intro hlen1
    exact hnotall ((length_extendCh_eq_one_iff _ _ _).mp hlen1)
  refine ⟨⟨v0, extendCh [(v0.pkg.getRef, [v0])] ns⟩, hlook, hhead, hd0, hv0vs.2, ?_⟩
  refine ⟨_, by rw [ResolveConflicts, htr]; rfl, ?_⟩
  have hmem : (s, (⟨v0, extendCh [(v0.pkg.getRef, [v0])] ns⟩ : Conflicts)) ∈ buildCheck vs :=
    mem_of_lookupCheck_eq_some _ _ _ hlook
  refine List.mem_map.mpr ⟨(s, ⟨v0, extendCh [(v0.pkg.getRef, [v0])] ns⟩), ?_, rfl⟩
  exact List.mem_filter.mpr ⟨hmem, by simpa using hlen⟩

/-- The root package of the project, as main builds it: the sentinel
node carries a descriptor whose Source is the project path. -/
def rootPkg : Package := ⟨"", "/proj", "", ""⟩

def pS1 : Package := ⟨"pkgS", "urlS", "master", "r1"⟩

def pMid : Package := ⟨"pkgM", "urlM", "", ""⟩

def pS2 : Package := ⟨"pkgS2", "urlS", "dev", "r2"⟩

/-- A tree where source urlS is requested at depth 1 with ref master/r1
and at depth 2 with ref dev/r2. -/
def c1root : Node :=
  .mk (some rootPkg) [.mk (some pS1) [], .mk (some pMid) [.mk (some pS2) []]]

def c1vs : List VNode :=
  [⟨0, pS1, [some rootPkg]⟩, ⟨1, pMid, [some rootPkg]⟩,
    ⟨2, pS2, [some pMid, some rootPkg]⟩]

theorem c1_traverse : traverse c1root = some c1vs := by
  simp [traverse, c1root, c1vs, Node.children, Node.packageInfo,
    bfsAux_cons_some, bfsAux_nil]

theorem resolveConflicts_shallowest_wins_witness :
    ∃ c : Conflicts, lookupCheck (buildCheck c1vs) "urlS" = some c ∧
      (nodesFor "urlS" c1vs).head? = some c.chosen ∧
      c.chosen.anc.length = 1 ∧
      c.chosen.pkg.Source = "urlS" ∧
      ∃ l, ResolveConflicts c1root = some l ∧ c.chosen.pkg ∈ l :=
  resolveConflicts_shallowest_wins c1root c1vs "urlS" c1_traverse
    ⟨0, pS1, [some rootPkg]⟩ (by decide) (by decide) (by decide)
    ⟨2, pS2, [some pMid, some rootPkg]⟩ (by decide) (by decide) (by decide)
    (by decide)

/-! ### C2: a source is reported iff its requesters disagree on refs -/

/-- Helper for C2: membership of a source in the result list is
equivalent to the existence of two requesters of that source with
different refs. -/
theorem resolveMem_iff
    (root : Node) (vs : List VNode) (l : List Package) (s : String)
    (htr : traverse root = some vs) (hl : ResolveConflicts root = some l) :
    (∃ p ∈ l, p.Source = s) ↔
      ∃ v1 ∈ vs, ∃ v2 ∈ vs, v1.pkg.Source = s ∧ v2.pkg.Source = s ∧
        v1.pkg.getRef ≠ v2.pkg.getRef := by
  rw [ResolveConflicts, htr] at hl
  simp only [Option.map_some', Option.some.injEq] at hl
  constructor
  · rintro ⟨p, hp, hps⟩
    rw [← hl] at hp
    obtain ⟨sc, hscmem, hpe⟩ := List.mem_map.mp hp
    obtain ⟨hscb, hpred⟩ := List.mem_filter.mp hscmem
    have hlook : lookupCheck (buildCheck vs) sc.1 = some sc.2 :=
      lookupCheck_eq_some_of_mem _ (checkKeys_nodup vs) _ _ hscb
    rw [lookup_buildCheck] at hlook
    rw [recordFor] at hlook
    cases hns : nodesFor sc.1 vs with
    | nil => rw [hns] at hlook; cases hlook
    | cons v0 ns =>
        rw [hns] at hlook
        have hsc2 : sc.2 = ⟨v0, extendCh [(v0.pkg.getRef, [v0])] ns⟩ :=
          (Option.some_inj.mp hlook).symm
        have hv0f : v0 ∈ nodesFor sc.1 vs := by
          rw [hns]; exact List.mem_cons_self _ _
        have hv0 := (mem_nodesFor sc.1 vs v0).mp hv0f
        have hps2 : sc.1 = s := by
          rw [← hps, ← hpe, hsc2]
          exact hv0.2.symm
        have hlen : (extendCh [(v0.pkg.getRef, [v0])] ns).length ≠ 1 := by
          have hx := hpred
          rw [hsc2] at hx
          simpa using hx
        have hnotall : ¬ ∀ n ∈ ns, n.pkg.getRef = v0.pkg.getRef := by
          intro hall
          exact hlen ((length_extendCh_eq_one_iff _ _ _).mpr hall)
        push_neg at hnotall
        obtain ⟨n, hn, hne⟩ := hnotall
        have hnf : n ∈ nodesFor sc.1 vs := by
          rw [hns]; exact List.mem_cons_of_mem _ hn
        have hnn := (mem_nodesFor sc.1 vs n).mp hnf
        exact ⟨v0, hv0.1, n, hnn.1, hps2 ▸ hv0.2, hps2 ▸ hnn.2, fun hh => hne hh.symm⟩
  · rintro ⟨v1, hv1, v2, hv2, hs1, hs2, href⟩
    have hv1f : v1 ∈ nodesFor s vs := (mem_nodesFor s vs v1).mpr ⟨hv1, hs1⟩
    have hv2f : v2 ∈ nodesFor s vs := (mem_nodesFor s vs v2).mpr ⟨hv2, hs2⟩
    obtain ⟨v0, ns, hns⟩ : ∃ v0 ns, nodesFor s vs = v0 :: ns := by
      cases hh : nodesFor s vs with
      | nil => rw [hh] at hv1f; cases hv1f
      | cons a t => exact ⟨a, t, rfl⟩
    have hlook : lookupCheck (buildCheck vs) s =
        some ⟨v0, extendCh [(v0.pkg.getRef, [v0])] ns⟩ := by
      rw [lookup_buildCheck, recordFor, hns]
    have hv0f : v0 ∈ nodesFor s vs := by rw [hns]; exact List.mem_cons_self _ _
    have hv0 := (mem_nodesFor s vs v0).mp hv0f
    have hnotall : ¬ ∀ n ∈ ns, n.pkg.getRef = v0.pkg.getRef := by
      intro hall
      have hallx : ∀ x ∈ nodesFor s vs, x.pkg.getRef = v0.pkg.getRef := by
        intro x hx
        rw [hns] at hx
        rcases List.mem_cons.mp hx with rfl | hx
        · rfl
        · exact hall x hx
      exact href ((hallx v1 hv1f).trans (hallx v2 hv2f).symm)
    have hlen : (extendCh [(v0.pkg.getRef, [v0])] ns).length ≠ 1 := by
      intro hlen1
      exact hnotall ((length_extendCh_eq_one_iff _ _ _).mp hlen1)
    refine ⟨v0.pkg, ?_, hv0.2⟩
    rw [← hl]
    refine List.mem_map.mpr
      ⟨(s, ⟨v0, extendCh [(v0.pkg.getRef, [v0])] ns⟩), ?_, rfl⟩
    refine List.mem_filter.mpr ⟨mem_of_lookupCheck_eq_some _ _ _ hlook, ?_⟩
    simpa using hlen

/-- C2: a source identity appears in the ResolveConflicts result list
exactly when two visited requesters of that source disagree on the ref;
in particular if every pair of requesters sharing a source agrees on
the ref, the result is empty and no diagnostics are emitted. -/
theorem resolveConflicts_result_iff_conflict
    (root : Node) (vs : List VNode) (l : List Package) (s : String)
    (htr : traverse root = some vs) (hl : ResolveConflicts root = some l) :
    ((∃ p ∈ l, p.Source = s) ↔
      ∃ v1 ∈ vs, ∃ v2 ∈ vs, v1.pkg.Source = s ∧ v2.pkg.Source = s ∧
        v1.pkg.getRef ≠ v2.pkg.getRef) ∧
    ((∀ v1 ∈ vs, ∀ v2 ∈ vs, v1.pkg.Source = v2.pkg.Source →
        v1.pkg.getRef = v2.pkg.getRef) →
      l = [] ∧ diagnostics root = some []) := by
  refine ⟨resolveMem_iff root vs l s htr hl, ?_⟩
  intro hagree
  have hempty : l = [] := by
    cases hl0 : l with
    | nil => rfl
    | cons p lrest =>
        have hp : p ∈ l := by rw [hl0]; exact List.mem_cons_self _ _
        obtain ⟨v1, hv1, v2, hv2, hs1, hs2, href⟩ :=
          (resolveMem_iff root vs l p.Source htr hl).mp ⟨p, hp, rfl⟩
        exact absurd (hagree v1 hv1 v2 hv2 (hs1.trans hs2.symm)) href
  refine ⟨hempty, ?_⟩
  rw [ResolveConflicts, htr] at hl
  simp only [Option.map_some', Option.some.injEq] at hl
  have hfil : (buildCheck vs).filter (fun sc => sc.2.changesets.length != 1) = [] :=
    List.map_eq_nil_iff.mp (hl.trans hempty)
  rw [diagnostics, htr]
  simp [hfil]

/-- A tree with a single package and one dependency, no shared sources
anywhere. -/
def c2root : Node :=
  .mk (some rootPkg) [.mk (some ⟨"pkgX", "urlA", "", ""⟩)
    [.mk (some ⟨"pkgY", "urlB", "", ""⟩) []]]

def c2vs : List VNode :=
  [⟨0, ⟨"pkgX", "urlA", "", ""⟩, [some rootPkg]⟩,
    ⟨1, ⟨"pkgY", "urlB", "", ""⟩, [some ⟨"pkgX", "urlA", "", ""⟩, some rootPkg]⟩]

theorem c2_traverse : traverse c2root = some c2vs := by
  simp [traverse, c2root, c2vs, Node.children, Node.packageInfo,
    bfsAux_cons_some, bfsAux_nil]

theorem resolveConflicts_result_iff_conflict_witness :
    ResolveConflicts c2root = some [] ∧ diagnostics c2root = some [] := by
  have hl : ResolveConflicts c2root = some [] := by
    rw [ResolveConflicts, c2_traverse]; rfl
  have h := resolveConflicts_result_iff_conflict c2root c2vs [] "urlA" c2_traverse hl
  exact ⟨hl, (h.2 (by decide)).2⟩

/-! ### C3: conflict detection on two packages sharing one source -/

def pA : Package := ⟨"pkgA", "urlX", "dev", ""⟩

def pB : Package := ⟨"pkgB", "urlX", "main", ""⟩

/-- The tree built for the manifest with packages pkgA and pkgB, both
with source urlX, branches dev and main, no revision, discovered in the
order pkgA then pkgB. -/
def rootAB : Node := .mk (some rootPkg) [.mk (some pA) [], .mk (some pB) []]

/-- The same tree with the opposite discovery order, since the Go map
iteration order over the manifest is unspecified. -/
def rootBA : Node := .mk (some rootPkg) [.mk (some pB) [], .mk (some pA) []]

def abVs : List VNode := [⟨0, pA, [some rootPkg]⟩, ⟨1, pB, [some rootPkg]⟩]

def baVs : List VNode := [⟨0, pB, [some rootPkg]⟩, ⟨1, pA, [some rootPkg]⟩]

theorem ab_traverse : traverse rootAB = some abVs := by
  simp [traverse, rootAB, abVs, Node.children, Node.packageInfo,
    bfsAux_cons_some, bfsAux_nil]

theorem ba_traverse : traverse rootBA = some baVs := by
  simp [traverse, rootBA, baVs, Node.children, Node.packageInfo,
    bfsAux_cons_some, bfsAux_nil]

/-- C3: the manifest with two distinctly named packages sharing source
urlX on branches dev and main (no revision) yields exactly one conflict
record, keyed urlX, with exactly the two changesets dev/HEAD and
main/HEAD, and a result list of length 1 — under either discovery
order of the two manifest entries. -/
theorem resolveConflicts_conflict_detection :
    checkKeys (buildCheck abVs) = ["urlX"] ∧
    (∃ c : Conflicts, lookupCheck (buildCheck abVs) "urlX" = some c ∧
      chKeys c.changesets = ["dev/HEAD", "main/HEAD"]) ∧
    ResolveConflicts rootAB = some [pA] ∧
    (∃ l, ResolveConflicts rootAB = some l ∧ l.length = 1) ∧
    checkKeys (buildCheck baVs) = ["urlX"] ∧
    (∃ c : Conflicts, lookupCheck (buildCheck baVs) "urlX" = some c ∧
      chKeys c.changesets = ["main/HEAD", "dev/HEAD"]) ∧
    (∃ l, ResolveConflicts rootBA = some l ∧ l.length = 1) := by
  have hab : ResolveConflicts rootAB = some [pA] := by
    rw [ResolveConflicts, ab_traverse]; rfl
  have hba : ResolveConflicts rootBA = some [pB] := by
    rw [ResolveConflicts, ba_traverse]; rfl
  refine ⟨by rfl, ⟨_, by rfl, by rfl⟩, hab, ⟨[pA], hab, rfl⟩,
    by rfl, ⟨_, by rfl, by rfl⟩, ⟨[pB], hba, rfl⟩⟩

/-! ### C4: ancestor chains in the emitted diagnostics -/

theorem mem_conflictEntries (c : Conflicts) (e : NodeReport) (h : e ∈ conflictEntries c) :
    ∃ v, v ∈ chNodes c.changesets ∧
      e = ⟨v.idx == c.chosen.idx, v.pkg.getRef, ancestorSources v.anc⟩ := by
  rw [conflictEntries] at h
  simp only [List.mem_flatMap, List.mem_map] at h
  obtain ⟨rn, hrn, v, hv, rfl⟩ := h
  exact ⟨v, by rw [chNodes]; exact List.mem_flatMap.mpr ⟨rn, hrn, hv⟩, rfl⟩

theorem chNodes_recordFor (s : String) (vs : List VNode) (c : Conflicts)
    (h : recordFor s vs = some c) :
    ∀ v ∈ chNodes c.changesets, v ∈ nodesFor s vs := by
  rw [recordFor] at h
  cases hns : nodesFor s vs with
  | nil => rw [hns] at h; cases h
  | cons v0 ns =>
      rw [hns] at h
      cases h
      intro v hv
      rcases mem_chNodes_extendCh _ _ _ hv with h2 | h2
      · have hv0 : v = v0 := by simpa [chNodes] using h2
        subst hv0
        exact List.mem_cons_self _ _
      · exact List.mem_cons_of_mem _ h2

def pDep1 : Package := ⟨"pkgP", "srcA", "", ""⟩

def pConf1 : Package := ⟨"pkgC", "urlS2", "main", ""⟩

def pConf2 : Package := ⟨"pkgD", "urlS2", "dev", ""⟩

/-- Tree with a conflict between a depth-1 node (pConf1) and a depth-2
node (pConf2, child of pDep1) over source urlS2, below the root that
main builds (whose descriptor carries the project path). -/
def c4root : Node :=
  .mk (some rootPkg) [.mk (some pDep1) [.mk (some pConf2) []], .mk (some pConf1) []]

def c4vs : List VNode :=
  [⟨0, pDep1, [some rootPkg]⟩, ⟨1, pConf1, [some rootPkg]⟩,
    ⟨2, pConf2, [some pDep1, some rootPkg]⟩]

theorem c4_traverse : traverse c4root = some c4vs := by
  simp [traverse, c4root, c4vs, Node.children, Node.packageInfo,
    bfsAux_cons_some, bfsAux_nil]

def c4reports : List ConflictReport :=
  [⟨"urlS2", [⟨true, "main/HEAD", ["/proj"]⟩,
    ⟨false, "dev/HEAD", ["srcA", "/proj"]⟩]⟩]

/-- Counterexample to C4: the conflicting node at depth 2 (ref
dev/HEAD, parent pDep1 with source srcA) gets the ancestor chain
srcA, /proj — the chain continues into the root node, because the root
built by main carries a non-nil descriptor whose Source is the project
path, so the nil-descriptor guard never skips it.  The claim says the
chain is exactly srcA. -/
theorem depth2_chain_includes_root_cex :
    diagnostics c4root = some c4reports ∧
    ∃ R ∈ c4reports, ∃ e ∈ R.entries, e.ref = "dev/HEAD" ∧
      e.fromChain = ["srcA", "/proj"] ∧ e.fromChain ≠ ["srcA"] := by
  have hdiag : diagnostics c4root = some c4reports := by
    rw [diagnostics, c4_traverse]
    rfl
  refine ⟨hdiag, ⟨"urlS2", [⟨true, "main/HEAD", ["/proj"]⟩,
    ⟨false, "dev/HEAD", ["srcA", "/proj"]⟩]⟩, by decide,
    ⟨false, "dev/HEAD", ["srcA", "/proj"]⟩, by decide, by decide, by decide, by decide⟩

/-- C4 amended: every entry of an emitted conflict diagnostic belongs
to a visited node, its printed chain walks the parent back-references,
and for a node at depth 2 the chain lists its depth-1 parent's source
followed by the source of the root node (the project path): the root
is included, not skipped, because the root main builds carries a
non-nil descriptor. -/
theorem conflict_chain_parent_then_root
    (root : Node) (rp : Package) (vs : List VNode)
    (hroot : root.packageInfo = some rp)
    (htr : traverse root = some vs)
    (reports : List ConflictReport) (hdiag : diagnostics root = some reports) :
    ∀ R ∈ reports, ∀ e ∈ R.entries, ∃ v ∈ vs,
      e.ref = v.pkg.getRef ∧ e.fromChain = ancestorSources v.anc ∧
      (v.anc.length = 2 → ∃ p1 : Package, v.anc = [some p1, some rp] ∧
        e.fromChain = [p1.Source, rp.Source]) := by
  rw [diagnostics, htr] at hdiag
  simp only [Option.map_some', Option.some.injEq] at hdiag
  intro R hR e he
  rw [← hdiag] at hR
  obtain ⟨sc, hscmem, hRe⟩ := List.mem_map.mp hR
  obtain ⟨hscb, hpred⟩ := List.mem_filter.mp hscmem
  have hentries : e ∈ conflictEntries sc.2 := by
    rw [← hRe] at he
    exact he
  obtain ⟨v, hvch, hve⟩ := mem_conflictEntries sc.2 e hentries
  have hlook : lookupCheck (buildCheck vs) sc.1 = some sc.2 :=
    lookupCheck_eq_some_of_mem _ (checkKeys_nodup vs) _ _ hscb
  rw [lookup_buildCheck] at hlook
  have hvf : v ∈ nodesFor sc.1 vs := chNodes_recordFor sc.1 vs sc.2 hlook v hvch
  have hvvs := (mem_nodesFor sc.1 vs v).mp hvf
  obtain ⟨ps, hps⟩ := traverse_anc_shape root vs htr v hvvs.1
  rw [hroot] at hps
  refine ⟨v, hvvs.1, by rw [hve], by rw [hve], ?_⟩
  intro hlen2
  have hpslen : ps.length = 1 := by
    rw [hps] at hlen2
    simp at hlen2
    exact hlen2
  obtain ⟨p1, hp1⟩ := List.length_eq_one.mp hpslen
  refine ⟨p1, by rw [hps, hp1]; rfl, ?_⟩
  rw [hve, hps, hp1]
  simpa using ancestorSources_shape [p1] rp

theorem conflict_chain_parent_then_root_witness :
    ∃ v ∈ c4vs,
      (NodeReport.mk false "dev/HEAD" ["srcA", "/proj"]).ref = v.pkg.getRef ∧
      (NodeReport.mk false "dev/HEAD" ["srcA", "/proj"]).fromChain = ancestorSources v.anc ∧
      (v.anc.length = 2 → ∃ p1 : Package, v.anc = [some p1, some rootPkg] ∧
        (NodeReport.mk false "dev/HEAD" ["srcA", "/proj"]).fromChain
          = [p1.Source, rootPkg.Source]) :=
  conflict_chain_parent_then_root c4root rootPkg c4vs rfl c4_traverse c4reports
    (by rw [diagnostics, c4_traverse]; rfl)
    ⟨"urlS2", [⟨true, "main/HEAD", ["/proj"]⟩, ⟨false, "dev/HEAD", ["srcA", "/proj"]⟩]⟩
    (by decide)
    ⟨false, "dev/HEAD", ["srcA", "/proj"]⟩
    (by decide)

/-! ### C5: manifest iteration order drives the canonical choice -/

/-- The tree downloadPackages builds under a flat manifest (each
package has no lock file of its own, so downloadPackage returns a
leaf node): the Go loop ranges over the manifest map and attaches one
child per entry in iteration order.  Go map iteration order is
unspecified and varies from run to run, so the embedding receives the
iteration order as an explicit list of the manifest's entries. -/
def downloadLeafTree (rootP : Package) (order : List Package) : Node :=
  Node.mk (some rootP) (order.map fun p => Node.mk (some p) [])

/-- C5 demonstration that the code lacks the claimed determinism: the
same manifest (packages pkgA and pkgB, one shared source, different
branches) iterated in the two orders a Go map may produce yields
different canonical descriptors from ResolveConflicts, so the
canonical choice is not a function of the manifest alone. -/
theorem downloadOrder_changes_canonical_choice :
    [pA, pB].Perm [pB, pA] ∧
    downloadLeafTree rootPkg [pA, pB] = rootAB ∧
    downloadLeafTree rootPkg [pB, pA] = rootBA ∧
    ResolveConflicts rootAB = some [pA] ∧
    ResolveConflicts rootBA = some [pB] ∧
    pA ≠ pB := by
  refine ⟨List.Perm.swap pB pA [], rfl, rfl, ?_, ?_, by decide⟩
  · rw [ResolveConflicts, ab_traverse]; rfl
  · rw [ResolveConflicts, ba_traverse]; rfl

/-! ### C6: pinned fetches check out the pinned revision and never pull -/

/-- A subprocess call issued against a working copy by the update
logic. -/
inductive GitOp where
  | checkout (ref : String)
  | pull (branch : String)
  | revParse
deriving DecidableEq, Repr

/-- GitRepository.update with its subprocess calls recorded as a trace:
a pinned package (hasRevision) gets checkoutRevision only; an unpinned
package gets checkoutBranchTip (checkout of the branch, then pull) and
getCurrentRevision (rev-parse), whose result currentRev is written back
into the Revision field. -/
def gitUpdate (currentRev : String) (p : Package) : List GitOp × Package :=
  if p.hasRevision then ([.checkout p.Revision], p)
  else ([.checkout p.getBranch, .pull p.getBranch, .revParse],
    { p with Revision := currentRev })

/-- Effect of one git operation on the checked-out revision of the
working copy: checkout moves HEAD to the named ref, pull moves HEAD to
the remote tip of the branch, rev-parse only reads. -/
def applyOp (tips : String → String) (head : String) : GitOp → String
  | .checkout r => r
  | .pull b => tips b
  | .revParse => head

/-- The checked-out revision after a trace of operations. -/
def runOps (tips : String → String) (head : String) (ops : List GitOp) : String :=
  ops.foldl (applyOp tips) head

/-- C6: for a pinned descriptor, update issues exactly one checkout of
the pinned revision and no pull, leaves the descriptor unchanged, and
leaves the working copy at that revision, so a repeated fetch lands on
the same revision (idempotence) whatever the remote tips or the
rev-parse answers do; for an unpinned descriptor it issues checkout,
pull, rev-parse and writes the resulting revision into the
descriptor. -/
theorem update_pinned_idempotent (p : Package) (cr cr2 : String)
    (tips : String → String) (head : String) :
    (p.hasRevision = true →
      gitUpdate cr p = ([.checkout p.Revision], p) ∧
      (∀ b, GitOp.pull b ∉ (gitUpdate cr p).1) ∧
      (gitUpdate cr p).2 = p ∧
      runOps tips head (gitUpdate cr p).1 = p.Revision ∧
      runOps tips (runOps tips head (gitUpdate cr p).1)
        (gitUpdate cr2 (gitUpdate cr p).2).1 = p.Revision) ∧
    (p.hasRevision = false →
      gitUpdate cr p = ([.checkout p.getBranch, .pull p.getBranch, .revParse],
        { p with Revision := cr })) := by
  constructor
  · intro hrev
    refine ⟨by simp [gitUpdate, hrev], ?_, by simp [gitUpdate, hrev],
      by simp [gitUpdate, hrev, runOps, applyOp], by simp [gitUpdate, hrev, runOps, applyOp]⟩
    intro b
    simp [gitUpdate, hrev]
  · intro hrev
    simp [gitUpdate, hrev]

theorem update_pinned_idempotent_witness :
    ((⟨"w", "u", "b", "r123"⟩ : Package).hasRevision = true ∧
      gitUpdate "tip9" ⟨"w", "u", "b", "r123"⟩ = ([.checkout "r123"], ⟨"w", "u", "b", "r123"⟩) ∧
      runOps (fun _ => "tip9") "b" (gitUpdate "tip9" ⟨"w", "u", "b", "r123"⟩).1 = "r123") ∧
    ((⟨"w", "u", "b", ""⟩ : Package).hasRevision = false ∧
      gitUpdate "tip9" ⟨"w", "u", "b", ""⟩ =
        ([.checkout "b", .pull "b", .revParse], ⟨"w", "u", "b", "tip9"⟩)) := by
  have h1 := (update_pinned_idempotent ⟨"w", "u", "b", "r123"⟩ "tip9" "x"
    (fun _ => "tip9") "b").1 (by decide)
  have h2 := (update_pinned_idempotent ⟨"w", "u", "b", ""⟩ "tip9" "x"
    (fun _ => "tip9") "b").2 (by decide)
  refine ⟨⟨by decide, h1.1, h1.2.2.2.1⟩, ⟨by decide, ?_⟩⟩
  simpa [Package.getBranch] using h2

/-! ### C9: getCurrentRevision strips the last character or yields the placeholder -/

/-- executeCommand: in dry-run mode the subprocess is not run and the
returned output is the empty string; otherwise it is the subprocess
output. -/
def executeCommand (noRun : Bool) (realOut : String) : String :=
  if noRun then "" else realOut

/-- getCurrentRevision: the output of git rev-parse HEAD with the last
position removed whenever the output is nonempty — the code slices off
the final position unconditionally, newline or not — and the
placeholder marker when the output is empty.  (Go slices the final
byte; the embedding works at character granularity, which agrees on
the ASCII output of rev-parse.) -/
def getCurrentRevision (out : String) : String :=
  if out.length > 0 then out.dropRight 1 else "<REV>"

/-- C9: getCurrentRevision removes the final character of every
nonempty output whether or not it is a newline, maps empty output
(as produced by a dry run, where no subprocess runs) to the
placeholder, and that placeholder is what update writes into the
Revision field of an unpinned descriptor under dry run. -/
theorem getCurrentRevision_spec :
    (∀ s : String, s ≠ "" → getCurrentRevision s = s.dropRight 1) ∧
    getCurrentRevision "" = "<REV>" ∧
    getCurrentRevision "abc\n" = "abc" ∧
    getCurrentRevision "abc" = "ab" ∧
    (∀ realOut, getCurrentRevision (executeCommand true realOut) = "<REV>") ∧
    (∀ p : Package, p.hasRevision = false → ∀ realOut,
      (gitUpdate (getCurrentRevision (executeCommand true realOut)) p).2.Revision
        = "<REV>") := by
  refine ⟨?_, by decide, by decide, by decide, ?_, ?_⟩
  · intro s hs
    have hlen : 0 < s.length := by
      cases hsd : s.data with
      | nil => exact absurd (by cases s; simp at hsd; simp [hsd]) hs
      | cons a t => simp [String.length, hsd]
    simp [getCurrentRevision, hlen]
  · intro realOut
    rfl
  · intro p hrev realOut
    simp [gitUpdate, hrev, executeCommand, getCurrentRevision]

theorem getCurrentRevision_spec_witness :
    getCurrentRevision "deadbeef\n" = "deadbeef" ∧
    ("deadbeef\n" ≠ "" ∧ getCurrentRevision "deadbeef\n" = ("deadbeef\n").dropRight 1) ∧
    ((⟨"w", "u", "b", ""⟩ : Package).hasRevision = false ∧
      (gitUpdate (getCurrentRevision (executeCommand true "ignored"))
        ⟨"w", "u", "b", ""⟩).2.Revision = "<REV>") := by
  refine ⟨by decide, ⟨by decide, getCurrentRevision_spec.1 "deadbeef\n" (by decide)⟩,
    ⟨by decide, getCurrentRevision_spec.2.2.2.2.2 ⟨"w", "u", "b", ""⟩ (by decide) "ignored"⟩⟩

/-! ### C7: a missing package name is a fatal lookup error -/

/-- Manifest: optional repository name and the named package map,
embedded as an association list. -/
structure Manifest where
  Repository : String
  Packages : List (String × Package)
deriving DecidableEq, Repr

/-- Go map indexing with the comma-ok idiom. -/
def lookupPkg : List (String × Package) → String → Option Package
  | [], _ => none
  | (n, p) :: rest, t => if n = t then some p else lookupPkg rest t

/-- Go map assignment. -/
def setPkg : List (String × Package) → String → Package → List (String × Package)
  | [], n, p => [(n, p)]
  | (n0, p0) :: rest, n, p =>
      if n0 = n then (n0, p) :: rest else (n0, p0) :: setPkg rest n p

/-- Observable outcome of one command run: exit code, the lines
written to standard error, and the lock-file writes performed. -/
structure RunOutcome where
  exitCode : Nat
  stderrLines : List String
  lockWrites : List Manifest
deriving DecidableEq, Repr

/-- The update-with-package-name path of main: look the name up in the
package manifest.  A missing name panics with a lookup error, which
the deferred top-level recover prints to standard error before exiting
with code 1; nothing has been written at that point.  Otherwise the
package is downloaded (dl yields the descriptor as mutated by the
fetch) and the lock file is rewritten with that one entry replaced. -/
def updateSingle (manifest lockManifest : Manifest) (name : String)
    (dl : Package → Package) : RunOutcome :=
  match lookupPkg manifest.Packages name with
  | none => ⟨1, ["Package not found: " ++ name], []⟩
  | some p =>
      ⟨0, [], [⟨lockManifest.Repository, setPkg lockManifest.Packages name (dl p)⟩]⟩

/-- The install-with-package-name path of main: look the name up in
the lock manifest.  A missing name panics with a lookup error naming
the lock file, printed to standard error with exit code 1; the install
path never writes the lock file. -/
def installSingle (lockManifest : Manifest) (name : String)
    (dl : Package → Package) : RunOutcome :=
  match lookupPkg lockManifest.Packages name with
  | none => ⟨1, ["Package " ++ name ++ " not found in packages.lock"], []⟩
  | some p =>
      let _ := dl p
      ⟨0, [], []⟩

/-- C7: for every manifest and name absent from its package map, the
single-package update and install commands abort with the lookup error
message on standard error and exit code 1, and no lock-file write
occurs. -/
theorem singlePackage_missing_fatal
    (manifest lockManifest : Manifest) (name : String) (dl : Package → Package)
    (hmiss : lookupPkg manifest.Packages name = none)
    (hmiss2 : lookupPkg lockManifest.Packages name = none) :
    updateSingle manifest lockManifest name dl =
      ⟨1, ["Package not found: " ++ name], []⟩ ∧
    (updateSingle manifest lockManifest name dl).exitCode ≠ 0 ∧
    (updateSingle manifest lockManifest name dl).lockWrites = [] ∧
    installSingle lockManifest name dl =
      ⟨1, ["Package " ++ name ++ " not found in packages.lock"], []⟩ ∧
    (installSingle lockManifest name dl).lockWrites = [] := by
  refine ⟨?_, ?_, ?_, ?_, ?_⟩ <;>
    simp [updateSingle, installSingle, hmiss, hmiss2]

theorem singlePackage_missing_fatal_witness :
    updateSingle ⟨"", [("a", pA)]⟩ ⟨"", [("a", pA)]⟩ "zzz" id =
      ⟨1, ["Package not found: zzz"], []⟩ ∧
    installSingle ⟨"", [("a", pA)]⟩ "zzz" id =
      ⟨1, ["Package zzz not found in packages.lock"], []⟩ := by
  have h := singlePackage_missing_fatal ⟨"", [("a", pA)]⟩ ⟨"", [("a", pA)]⟩ "zzz" id
    (by decide) (by decide)
  exact ⟨h.1, h.2.2.2.1⟩

/-! ### C8: no cycle detection in the recursive fetch -/

mutual

/-- The recursion structure of downloadPackage: env maps a source
identity to the entry list of the lock manifest found in that
package's working copy (none when the working copy has no lock file).
Git side effects (mkdir, clone, fetch, checkout) do not influence the
recursion and are abstracted away.  fuel bounds the recursion depth: a
none result means the call tree is deeper than the bound, so the
unbounded Go recursion never returns. -/
def download (env : String → Option (List Package)) : Nat → Package → Option Node
  | 0, _ => none
  | fuel + 1, p =>
      match env p.Source with
      | none => some (Node.mk (some p) [])
      | some entries =>
          (downloadList env fuel entries).map fun cs => Node.mk (some p) cs
termination_by fuel p => (fuel, 0)

/-- The loop of downloadPackages: download every entry in turn,
collecting the children; any failure aborts the whole run. -/
def downloadList (env : String → Option (List Package)) :
    Nat → List Package → Option (List Node)
  | _, [] => some []
  | fuel, q :: qs =>
      match download env fuel q with
      | none => none
      | some t => (downloadList env fuel qs).map fun ts => t :: ts
termination_by fuel l => (fuel, l.length + 1)

end

theorem downloadList_eq_none_of_mem (env : String → Option (List Package)) (n : Nat)
    (xs : List Package) (x : Package) (hx : x ∈ xs)
    (hf : download env n x = none) : downloadList env n xs = none := by
  induction xs with
  | nil => cases hx
  | cons a t ih =>
      rcases List.mem_cons.mp hx with rfl | hx2
      · simp [downloadList, hf]
      · cases hfa : download env n a <;> simp [downloadList, hfa, ih hx2]

theorem downloadList_isSome_of_forall (env : String → Option (List Package)) (n : Nat)
    (xs : List Package) (h : ∀ x ∈ xs, (download env n x).isSome) :
    (downloadList env n xs).isSome := by
  induction xs with
  | nil => simp [downloadList]
  | cons a t ih =>
      obtain ⟨b, hb⟩ := Option.isSome_iff_exists.mp (h a (List.mem_cons_self _ _))
      have ht := ih (fun x hx => h x (List.mem_cons_of_mem _ hx))
      obtain ⟨bs, hbs⟩ := Option.isSome_iff_exists.mp ht
      simp [downloadList, hb, hbs]

theorem downloadList_forall2 (env : String → Option (List Package)) (n : Nat) :
    ∀ (xs : List Package) (ys : List Node), downloadList env n xs = some ys →
      List.Forall₂ (fun x y => download env n x = some y) xs ys := by
  intro xs
  induction xs with
  | nil =>
      intro ys h
      rw [downloadList] at h
      obtain rfl := Option.some_inj.mp h
      exact .nil
  | cons a t ih =>
      intro ys h
      rw [downloadList] at h
      cases hfa : download env n a with
      | none =>
          rw [hfa] at h
          have h2 : (none : Option (List Node)) = some ys := h
          cases h2
      | some b =>
          rw [hfa] at h
          have h2 : (downloadList env n t).map (fun ts => b :: ts) = some ys := h
          obtain ⟨ts, hts, rfl⟩ := Option.map_eq_some'.mp h2
          exact .cons hfa (ih ts hts)

/-- A node is the full unfolding of the dependency graph under a
package when its children correspond one to one, in order, to the lock
manifest entries of that package's source: each manifest entry is
visited once per occurrence. -/
inductive IsUnfolding (env : String → Option (List Package)) : Package → Node → Prop where
  | leaf (p : Package) (h : env p.Source = none) : IsUnfolding env p (Node.mk (some p) [])
  | branch (p : Package) (entries : List Package) (cs : List Node)
      (h : env p.Source = some entries)
      (hcs : List.Forall₂ (IsUnfolding env) entries cs) :
      IsUnfolding env p (Node.mk (some p) cs)

theorem download_isUnfolding (env : String → Option (List Package)) :
    ∀ (fuel : Nat) (p : Package) (t : Node), download env fuel p = some t →
      IsUnfolding env p t := by
  intro fuel
  induction fuel with
  | zero => intro p t h; rw [download] at h; cases h
  | succ n ih =>
      intro p t h
      cases henv : env p.Source with
      | none =>
          rw [download, henv] at h
          obtain rfl := Option.some_inj.mp h
          exact .leaf p henv
      | some entries =>
          rw [download, henv] at h
          have h2 : (downloadList env n entries).map
              (fun cs => Node.mk (some p) cs) = some t := h
          obtain ⟨cs, hcs, rfl⟩ := Option.map_eq_some'.mp h2
          exact .branch p entries cs henv
            (List.Forall₂.imp (fun q c hqc => ih q c hqc)
              (downloadList_forall2 env n entries cs hcs))

/-- C8: the recursive fetch has no cycle detection.  First half: if the
source of a package belongs to a set S of sources each of which lists,
in its lock manifest, a dependency whose source is again in S (a
dependency cycle by source identity), then the recursion exceeds every
depth bound — it does not terminate.  Second half: if the dependency
graph is acyclic, witnessed by a rank that strictly decreases from a
package to its lock-manifest entries, the recursion terminates and
returns the full unfolding tree, visiting each manifest entry once per
occurrence. -/
theorem download_no_cycle_detection :
    (∀ (env : String → Option (List Package)) (S : String → Prop),
      (∀ s, S s → ∃ entries, env s = some entries ∧ ∃ q ∈ entries, S q.Source) →
      ∀ p : Package, S p.Source → ∀ fuel, download env fuel p = none) ∧
    (∀ (env : String → Option (List Package)) (rank : String → Nat),
      (∀ s entries q, env s = some entries → q ∈ entries → rank q.Source < rank s) →
      ∀ p : Package, ∀ fuel, rank p.Source < fuel →
        ∃ t, download env fuel p = some t ∧ IsUnfolding env p t) := by
  constructor
  · intro env S hS p hp fuel
    induction fuel generalizing p with
    | zero => rw [download]
    | succ n ih =>
        obtain ⟨entries, henv, q, hq, hqS⟩ := hS p.Source hp
        rw [download, henv]
        show (downloadList env n entries).map (fun cs => Node.mk (some p) cs) = none
        rw [downloadList_eq_none_of_mem env n entries q hq (ih q hqS)]
        rfl
  · intro env rank hrank p fuel
    induction fuel generalizing p with
    | zero => intro h; cases h
    | succ n ih =>
        intro hlt
        cases henv : env p.Source with
        | none => exact ⟨Node.mk (some p) [], by rw [download, henv], .leaf p henv⟩
        | some entries =>
            have hall : ∀ q ∈ entries, (download env n q).isSome := by
              intro q hq
              have hqlt : rank q.Source < n :=
                Nat.lt_of_lt_of_le (hrank p.Source entries q henv hq)
                  (Nat.lt_succ_iff.mp hlt)
              obtain ⟨t, ht, _⟩ := ih q hqlt
              rw [ht]
              rfl
            obtain ⟨cs, hcs⟩ := Option.isSome_iff_exists.mp
              (downloadList_isSome_of_forall env n entries hall)
            refine ⟨Node.mk (some p) cs, ?_, ?_⟩
            · rw [download, henv]
              show (downloadList env n entries).map (fun cs => Node.mk (some p) cs) =
                some (Node.mk (some p) cs)
              rw [hcs]
              rfl
            exact .branch p entries cs henv
              (List.Forall₂.imp (fun q c hqc => download_isUnfolding env n q c hqc)
                (downloadList_forall2 env n entries cs hcs))

def pkgCyc : Package := ⟨"pkgA", "srcCyc", "", ""⟩

/-- A dependency environment in which source srcCyc lists a dependency
on source srcCyc again. -/
def envCyc : String → Option (List Package) :=
  fun s => if s = "srcCyc" then some [pkgCyc] else none

def pkgB2 : Package := ⟨"pkgB", "srcB", "", ""⟩

def pkgLeafC : Package := ⟨"pkgLeaf", "srcC", "", ""⟩

/-- An acyclic environment: srcB depends on srcC, which has no lock
file. -/
def envAcy : String → Option (List Package) :=
  fun s => if s = "srcB" then some [pkgLeafC] else none

def rankAcy : String → Nat := fun s => if s = "srcB" then 1 else 0

theorem download_no_cycle_detection_witness :
    download envCyc 7 pkgCyc = none ∧
    ∃ t, download envAcy 2 pkgB2 = some t ∧ IsUnfolding envAcy pkgB2 t := by
  constructor
  · refine download_no_cycle_detection.1 envCyc (fun s => s = "srcCyc") ?_ pkgCyc rfl 7
    intro s hs
    subst hs
    exact ⟨[pkgCyc], rfl, pkgCyc, List.mem_cons_self _ _, rfl⟩
  · refine download_no_cycle_detection.2 envAcy rankAcy ?_ pkgB2 2 (by decide)
    intro s entries q henv hq
    by_cases hs : s = "srcB"
    · subst hs
      simp [envAcy] at henv
      subst henv
      simp at hq
      subst hq
      simp [rankAcy, pkgLeafC]
    · simp [envAcy, hs] at henv

/-! ### C10: ResolveConflicts is read-only on the dependency tree -/

/-- A tree node as a heap record: the Go Node struct with its pointers
made explicit as heap indices — the packageInfo pointer (the carried
descriptor value), the parent back-reference, and the ordered children
indices. -/
structure HNode where
  packageInfo : Option Package
  parent : Option Nat
  children : List Nat
deriving DecidableEq, Repr

/-- Pointer dereference into the heap of nodes. -/
def getNode (heap : List HNode) (i : Nat) : Option HNode := heap.get? i

/-- The per-source record of the heap version of ResolveConflicts: the
chosen node pointer and the changesets from ref to requesting node
pointers. -/
structure HConflicts where
  chosenIdx : Nat
  changesets : List (String × List Nat)
deriving DecidableEq, Repr

def haddChangeset : List (String × List Nat) → String → Nat →
    List (String × List Nat)
  | [], ref, i => [(ref, [i])]
  | (r, ns) :: rest, ref, i =>
      if r = ref then (r, ns ++ [i]) :: rest
      else (r, ns) :: haddChangeset rest ref i

def hcheckInsert : List (String × HConflicts) → Nat → Package →
    List (String × HConflicts)
  | [], i, p => [(p.Source, ⟨i, [(p.getRef, [i])]⟩)]
  | (s, c) :: rest, i, p =>
      if s = p.Source then
        (s, ⟨c.chosenIdx, haddChangeset c.changesets p.getRef i⟩) :: rest
      else (s, c) :: hcheckInsert rest i p

/-- The ancestor walk of the diagnostic printing, on the heap: follow
parent pointers while the parent exists and carries a non-nil
packageInfo, collecting sources.  The walk only reads the heap; fuel
bounds it because an arbitrary heap may have a parent cycle, which the
tree built by addChild never has. -/
def hAncestors (heap : List HNode) : Nat → Option Nat → List String
  | 0, _ => []
  | _ + 1, none => []
  | fuel + 1, some i =>
      match getNode heap i with
      | none => []
      | some nd =>
          match nd.packageInfo with
          | none => []
          | some p => p.Source :: hAncestors heap fuel nd.parent

/-- The breadth-first loop of ResolveConflicts on the heap: pop a node
pointer, dereference it (a nil packageInfo aborts, as in the pure
model), fold it into the check map, push its children.  The heap is
threaded through and returned so that the frame property is a theorem
about the function rather than a typing accident; the loop performs no
store. -/
def hResolveLoop (heap : List HNode) : Nat → List Nat → List (String × HConflicts) →
    List HNode × Option (List (String × HConflicts))
  | 0, _, _ => (heap, none)
  | _ + 1, [], check => (heap, some check)
  | fuel + 1, i :: rest, check =>
      match getNode heap i with
      | none => (heap, none)
      | some nd =>
          match nd.packageInfo with
          | none => (heap, none)
          | some p => hResolveLoop heap fuel (rest ++ nd.children) (hcheckInsert check i p)

/-- The ref of a node pointer, as the diagnostic printing reads it;
the defaults cover dangling pointers, which the loop never stores. -/
def hRefOf (heap : List HNode) (i : Nat) : String :=
  match getNode heap i with
  | none => ""
  | some nd =>
      match nd.packageInfo with
      | none => ""
      | some p => p.getRef

/-- The parent pointer of a node pointer. -/
def hParentOf (heap : List HNode) (i : Nat) : Option Nat :=
  match getNode heap i with
  | none => none
  | some nd => nd.parent

/-- The result assembly of the heap ResolveConflicts: filter the check
map for sources with more than one distinct ref, read each chosen
node's descriptor out of the heap for the resolution list, and build
the diagnostics by reading refs and parent chains.  Every heap access
is a read. -/
def hBuildResult (heap2 : List HNode) (fuel : Nat)
    (check : List (String × HConflicts)) :
    List (Option Package) × List ConflictReport :=
  ((check.filter fun sc => sc.2.changesets.length != 1).map
      fun sc => (getNode heap2 sc.2.chosenIdx).bind HNode.packageInfo,
    (check.filter fun sc => sc.2.changesets.length != 1).map
      fun sc =>
        ⟨sc.1, sc.2.changesets.flatMap fun rn =>
          rn.2.map fun i =>
            ⟨i == sc.2.chosenIdx, hRefOf heap2 i,
              hAncestors heap2 fuel (hParentOf heap2 i)⟩⟩)

/-- ResolveConflicts on the heap: run the breadth-first loop from the
root's children, then assemble the result against the heap the loop
handed back.  The input heap comes back alongside the result. -/
def hResolve (fuel : Nat) (heap : List HNode) (rootIdx : Nat) :
    List HNode × Option (List (Option Package) × List ConflictReport) :=
  match getNode heap rootIdx with
  | none => (heap, none)
  | some rootNd =>
      ((hResolveLoop heap fuel rootNd.children []).1,
        (hResolveLoop heap fuel rootNd.children []).2.map
          (hBuildResult (hResolveLoop heap fuel rootNd.children []).1 fuel))

theorem hResolveLoop_fst (heap : List HNode) :
    ∀ (fuel : Nat) (q : List Nat) (check : List (String × HConflicts)),
      (hResolveLoop heap fuel q check).1 = heap := by
  intro fuel
  induction fuel with
  | zero => intro q check; rfl
  | succ n ih =>
      intro q check
      cases q with
      | nil => rfl
      | cons i rest =>
          cases hg : getNode heap i with
          | none => simp [hResolveLoop, hg]
          | some nd =>
              cases hp : nd.packageInfo with
              | none => simp [hResolveLoop, hg, hp]
              | some p => simp [hResolveLoop, hg, hp, ih]

/-- Every chosen pointer stored in the check map was stored while
visiting a node whose descriptor pointer is non-nil. -/
def ChosenOk (heap : List HNode) (check : List (String × HConflicts)) : Prop :=
  ∀ sc ∈ check, ∃ nd p, getNode heap sc.2.chosenIdx = some nd ∧ nd.packageInfo = some p

theorem chosenOk_hcheckInsert (heap : List HNode) (check : List (String × HConflicts))
    (i : Nat) (p : Package) (nd : HNode)
    (hnd : getNode heap i = some nd) (hp : nd.packageInfo = some p)
    (hok : ChosenOk heap check) : ChosenOk heap (hcheckInsert check i p) := by
  induction check with
  | nil =>
      intro sc hsc
      simp [hcheckInsert] at hsc
      subst hsc
      exact ⟨nd, p, hnd, hp⟩
  | cons e rest ih =>
      obtain ⟨s0, c0⟩ := e
      intro sc hsc
      by_cases hs : s0 = p.Source
      · rw [hcheckInsert, if_pos hs] at hsc
        rcases List.mem_cons.mp hsc with rfl | hsc2
        · obtain ⟨nd0, p0, h1, h2⟩ := hok (s0, c0) (List.mem_cons_self _ _)
          exact ⟨nd0, p0, h1, h2⟩
        · exact hok sc (List.mem_cons_of_mem _ hsc2)
      · rw [hcheckInsert, if_neg hs] at hsc
        rcases List.mem_cons.mp hsc with rfl | hsc2
        · exact hok _ (List.mem_cons_self _ _)
        · exact ih (fun sc2 hsc3 => hok sc2 (List.mem_cons_of_mem _ hsc3)) sc hsc2

theorem hResolveLoop_chosenOk (heap : List HNode) :
    ∀ (fuel : Nat) (q : List Nat) (check check2 : List (String × HConflicts)),
      ChosenOk heap check →
      (hResolveLoop heap fuel q check).2 = some check2 →
      ChosenOk heap check2 := by
  intro fuel
  induction fuel with
  | zero => intro q check check2 hok h; cases h
  | succ n ih =>
      intro q check check2 hok h
      cases q with
      | nil =>
          obtain rfl : check = check2 := Option.some_inj.mp h
          exact hok
      | cons i rest =>
          rw [hResolveLoop] at h
          cases hg : getNode heap i with
          | none => rw [hg] at h; cases h
          | some nd =>
              rw [hg] at h
              have h2 : (match nd.packageInfo with
                  | none => (heap, (none : Option (List (String × HConflicts))))
                  | some p => hResolveLoop heap n (rest ++ nd.children)
                      (hcheckInsert check i p)).2 = some check2 := h
              cases hp : nd.packageInfo with
              | none =>
                  rw [hp] at h2
                  simp at h2
              | some p =>
                  rw [hp] at h2
                  have h3 : (hResolveLoop heap n (rest ++ nd.children)
                      (hcheckInsert check i p)).2 = some check2 := h2
                  exact ih (rest ++ nd.children) _ check2
                    (chosenOk_hcheckInsert heap check i p nd hg hp hok) h3

/-- C10: the heap embedding of ResolveConflicts returns the heap of
nodes unchanged for every input — no node's descriptor, parent
back-reference, or children sequence is written — and every entry of
the returned resolution list is the very descriptor stored in some
heap node (the list aliases the tree's descriptors rather than copying
or altering them). -/
theorem resolveConflicts_heap_frame :
    (∀ (fuel : Nat) (heap : List HNode) (rootIdx : Nat),
      (hResolve fuel heap rootIdx).1 = heap) ∧
    (∀ (fuel : Nat) (heap : List HNode) (rootIdx : Nat) res reps,
      (hResolve fuel heap rootIdx).2 = some (res, reps) →
      ∀ x ∈ res, ∃ i nd p, getNode heap i = some nd ∧
        nd.packageInfo = some p ∧ x = some p) := by
  constructor
  · intro fuel heap rootIdx
    rw [hResolve]
    cases hg : getNode heap rootIdx with
    | none => rfl
    | some rootNd =>
        show (hResolveLoop heap fuel rootNd.children []).1 = heap
        exact hResolveLoop_fst heap fuel rootNd.children []
  · intro fuel heap rootIdx res reps h x hx
    rw [hResolve] at h
    cases hg : getNode heap rootIdx with
    | none => rw [hg] at h; cases h
    | some rootNd =>
        rw [hg] at h
        have h2 : ((hResolveLoop heap fuel rootNd.children []).2.map
            (hBuildResult (hResolveLoop heap fuel rootNd.children []).1 fuel))
              = some (res, reps) := h
        obtain ⟨check, hcheck, hpair⟩ := Option.map_eq_some'.mp h2
        have hfst : (hResolveLoop heap fuel rootNd.children []).1 = heap :=
          hResolveLoop_fst heap fuel rootNd.children []
        rw [hfst] at hpair
        have hok : ChosenOk heap check :=
          hResolveLoop_chosenOk heap fuel rootNd.children [] check
            (fun sc hsc => absurd hsc (List.not_mem_nil sc)) hcheck
        have hres : res = (check.filter fun sc => sc.2.changesets.length != 1).map
            (fun sc => (getNode heap sc.2.chosenIdx).bind HNode.packageInfo) := by
          have hcomp := congrArg Prod.fst hpair
          simpa [hBuildResult] using hcomp.symm
        rw [hres] at hx
        obtain ⟨sc, hscmem, hxe⟩ := List.mem_map.mp hx
        obtain ⟨ndc, pc, h1, h2c⟩ := hok sc (List.mem_filter.mp hscmem).1
        exact ⟨sc.2.chosenIdx, ndc, pc, h1, h2c, by rw [← hxe, h1]; simp [h2c]⟩

/-- The heap holding the two-package shared-source tree: node 0 is the
root, nodes 1 and 2 are pkgA and pkgB. -/
def abHeap : List HNode :=
  [⟨some rootPkg, none, [1, 2]⟩, ⟨some pA, some 0, []⟩, ⟨some pB, some 0, []⟩]

theorem resolveConflicts_heap_frame_witness :
    (hResolve 9 abHeap 0).1 = abHeap ∧
    ∃ res reps, (hResolve 9 abHeap 0).2 = some (res, reps) ∧
      ∀ x ∈ res, ∃ i nd p, getNode abHeap i = some nd ∧
        nd.packageInfo = some p ∧ x = some p := by
  constructor
  · exact resolveConflicts_heap_frame.1 9 abHeap 0
  · exact ⟨_, _, rfl, resolveConflicts_heap_frame.2 9 abHeap 0 _ _ rfl⟩

end Deliver
